import Mathlib

/-!
Verification of the NLP core of `app/crud/nlp_crud.py` (computer-aided
translation engine): tokenizer, draft/meta splicer, suggestion-trie learner
and lookup, auto-translator, progress metric and alignment export.

The Python code is shallowly embedded: program strings are `List Char`
(Python indexes strings by code point), Python ints are `Int`, Python floats
that arise here are dyadic/exact and are modelled by `ℚ`, fallible code
returns `Except String`, and database queries are replaced by explicit
parameters carrying the rows the code would read.
-/

namespace NlpCrud

/-- Characters Python's `str.strip`/`str.split` treat as whitespace
(the ones relevant to this code base). -/
def isPySpace (c : Char) : Bool :=
  c = ' ' ∨ c = '\t' ∨ c = '\n' ∨ c = '\r' ∨ c = '\x0b' ∨ c = '\x0c'

/-- Python slice `l[a:b]` for int indices: negative indices count from the
end, then both bounds are clamped to `[0, len l]`. -/
def pySlice {α : Type} (l : List α) (a b : Int) : List α :=
  let n : Int := l.length
  let a' : Int := if a < 0 then max (n + a) 0 else min a n
  let b' : Int := if b < 0 then max (n + b) 0 else min b n
  (l.take b'.toNat).drop a'.toNat

/-- Slice `l[a:b]` for natural bounds (as recorded in token occurrences). -/
def natSlice {α : Type} (l : List α) (a b : Nat) : List α :=
  (l.drop a).take (b - a)

/-- Python `str.strip()`. -/
def pyStrip (l : List Char) : List Char :=
  ((l.dropWhile isPySpace).reverse.dropWhile isPySpace).reverse

/-- Python `str.split()` (split on whitespace runs, no empty parts). -/
def pySplit (l : List Char) : List (List Char) :=
  let r := l.foldl
    (fun (acc : List (List Char) × List Char) c =>
      if isPySpace c then
        (if acc.2 = [] then acc else (acc.1 ++ [acc.2], []))
      else (acc.1, acc.2 ++ [c]))
    ([], [])
  if r.2 = [] then r.1 else r.1 ++ [r.2]

/-- Python `s.find(sub, i)` scanning loop over the remaining characters. -/
def subFind (sub : List Char) : List Char → Nat → Option Nat
  | l, i =>
    if sub.isPrefixOf l then some i
    else
      match l with
      | [] => none
      | _ :: t => subFind sub t (i + 1)

/-- Python `s.find(sub, start)`, returning `none` for Python's `-1`. -/
def pyFind (s sub : List Char) (start : Nat) : Option Nat :=
  if start ≤ s.length then subFind sub (s.drop start) start else none

instance instDecEqExcept {ε α : Type} [DecidableEq ε] [DecidableEq α] :
    DecidableEq (Except ε α) := fun a b =>
  match a, b with
  | .error x, .error y =>
    if h : x = y then isTrue (congrArg Except.error h)
    else isFalse (fun hc => h (Except.error.inj hc))
  | .ok x, .ok y =>
    if h : x = y then isTrue (congrArg Except.ok h)
    else isFalse (fun hc => h (Except.ok.inj hc))
  | .error _, .ok _ => isFalse (fun hc => Except.noConfusion hc)
  | .ok _, .error _ => isFalse (fun hc => Except.noConfusion hc)

/-- Stable insertion into a descending-sorted list: `x` goes after every
element the comparison keeps before it (mirrors Python's stable sort). -/
def stableInsert {α : Type} (keep : α → α → Bool) (x : α) : List α → List α
  | [] => [x]
  | y :: ys => if keep y x then y :: stableInsert keep x ys else x :: y :: ys

/-- Stable descending sort, as Python's `sorted(..., reverse=True)`:
`keep y x` means `y`'s sort key is ≥ `x`'s, so `x` is placed after `y`. -/
def stableSortDesc {α : Type} (keep : α → α → Bool) (l : List α) : List α :=
  l.foldl (fun acc x => stableInsert keep x acc) []

/-! ## Draft/meta splicer: `replace_token` (nlp_crud.py 219-269) -/

/-- A draft-meta entry `((srcStart, srcEnd), (dstStart, dstEnd), status)`.
The status is the literal Python tag string (`"untranslated"`,
`"suggestion"`, `"confirmed"`). -/
abbrev Seg := (Int × Int) × (Int × Int) × String

/-- The loop state of `replace_token`: the accumulators `updated_meta` and
`updated_draft`, the two cells of `translation_offset` (initially `None`),
and `offset_diff`, which is unbound (`none`) until the intersecting segment
has been processed. -/
structure RState where
  meta : List Seg
  draft : List Char
  t0 : Option Int
  t1 : Option Int
  odiff : Option Int
deriving DecidableEq

/-- One iteration of the `for meta in draft_meta` loop of `replace_token`.
`set(range(s,e)) & set(range(g0,g1)) ≠ ∅` is `max s g0 < min e g1`.
Reading `translation_offset[0]` while it is `None` is Python's
`TypeError` (`None + int`); reading `offset_diff` before any assignment is
an `UnboundLocalError`; both are surfaced as `.error`. -/
def rtStep (source draftFull translation : List Char) (s e : Int) (tag : String)
    (st : RState) (m : Seg) : Except String RState :=
  let g0 := m.1.1
  let g1 := m.1.2
  let d0 := m.2.1.1
  let d1 := m.2.1.2
  let status := m.2.2
  if max s g0 < min e g1 then
    -- our area of interest overlaps with this segment
    let st1 : RState :=
      if s = g0 then -- beginning is same
        { st with t0 := some d0, draft := st.draft ++ translation }
      else if s > g0 then -- begins within this segment
        { st with
          draft := st.draft ++ pySlice source g0 s ++ translation,
          meta := st.meta ++ [((g0, s), (d0, d0 + (s - g0)), "untranslated")],
          t0 := some (d0 + (s - g0)) }
      else st -- begins before this segment
    if e = g1 then -- ending is the same
      match st1.t0 with
      | none => .error "TypeError: unsupported operand types NoneType and int"
      | some t0 =>
        let t1 := t0 + (translation.length : Int)
        .ok { st1 with
          t1 := some t1,
          meta := st1.meta ++ [((s, e), (t0, t1), tag)],
          odiff := some (t1 - d1) }
    else if e < g1 then -- ends within this segment
      match st1.t0 with
      | none => .error "TypeError: unsupported operand types NoneType and int"
      | some t0 =>
        let trailing := pySlice source e g1
        let t1 := t0 + (translation.length : Int)
        .ok { st1 with
          t1 := some t1,
          meta := st1.meta ++
            [((s, e), (t0, t1), tag),
             ((e, g1), (t1, t1 + (trailing.length : Int)), "untranslated")],
          draft := st1.draft ++ trailing,
          odiff := some (t1 + (trailing.length : Int) - d1) }
    else .ok st1 -- ends after this segment
  else if g1 < e then -- our area of interest comes after this segment
    .ok { st with
      draft := st.draft ++ pySlice draftFull d0 d1,
      meta := st.meta ++ [m] }
  else -- our area of interest was before this segment
    match st.odiff with
    | none => .error "UnboundLocalError: local variable offset_diff referenced before assignment"
    | some diff =>
      .ok { st with
        draft := st.draft ++ pySlice draftFull d0 d1,
        meta := st.meta ++ [((g0, g1), (d0 + diff, d1 + diff), status)] }

/-- The `for meta in draft_meta` loop of `replace_token`. -/
def rtLoop (source draftFull translation : List Char) (s e : Int) (tag : String) :
    RState → List Seg → Except String RState
  | st, [] => .ok st
  | st, m :: rest =>
    match rtStep source draftFull translation s e tag st m with
    | .error msg => .error msg
    | .ok st' => rtLoop source draftFull translation s e tag st' rest

/-- `replace_token(source, token_offset, translation, draft, draft_meta, tag)`
(nlp_crud.py 219-269).  An empty `draft_meta` is replaced by the fresh
segmentation `[((0,N),(0,N),"untranslated")]` with `draft = source`. -/
def replace_token (source : List Char) (tokenOffset : Int × Int)
    (translation draft : List Char) (draftMeta : List Seg) (tag : String) :
    Except String (List Char × List Seg) :=
  let dm :=
    if draftMeta = [] then
      (source, [(((0 : Int), (source.length : Int)),
                 ((0 : Int), (source.length : Int)), "untranslated")])
    else (draft, draftMeta)
  match rtLoop source dm.1 translation tokenOffset.1 tokenOffset.2 tag
      ⟨[], [], none, none, none⟩ dm.2 with
  | .error msg => .error msg
  | .ok st => .ok (st.draft, st.meta)

/-! ## Basic lemmas about the Python primitives -/

theorem pySlice_of_bounds {α : Type} (l : List α) (a b : Int)
    (h0 : 0 ≤ a) (ha : a ≤ l.length) (hb0 : 0 ≤ b) (hb : b ≤ l.length) :
    pySlice l a b = (l.take b.toNat).drop a.toNat := by
  simp only [pySlice]
  rw [if_neg (by omega), if_neg (by omega)]
  congr 2
  · omega
  · congr 1
    omega

theorem pySlice_length {α : Type} (l : List α) (a b : Int)
    (h0 : 0 ≤ a) (hab : a ≤ b) (hb : b ≤ l.length) :
    (pySlice l a b).length = (b - a).toNat := by
  rw [pySlice_of_bounds l a b h0 (by omega) (by omega) hb]
  rw [List.length_drop, List.length_take]
  omega

theorem pySlice_whole {α : Type} (l : List α) :
    pySlice l 0 (l.length : Int) = l := by
  rw [pySlice_of_bounds l 0 l.length (by omega) (by omega) (by omega) (by omega)]
  simp

/-- C1: for a source sentence covered by a single `untranslated` segment,
`replace_token` on a token offset `[s,e]` strictly inside that segment
(`0 < s`, `e < len source`) returns a draft and meta made of exactly three
parts: the untranslated prefix `[0,s)`, the replacement `[s,e]` mapped to
the translation's range `[s, s+len tr)` and tagged `tag`, and the
untranslated suffix `[e, N)` with dst offsets re-based by the translation's
length. -/
theorem replace_token_strict_inside (source translation : List Char) (tag : String)
    (s e : Int) (h0 : 0 < s) (hse : s < e) (heN : e < (source.length : Int)) :
    replace_token source (s, e) translation source
      [((0, (source.length : Int)), (0, (source.length : Int)), "untranslated")] tag
    = .ok (pySlice source 0 s ++ translation ++ pySlice source e (source.length : Int),
        [((0, s), (0, s), "untranslated"),
         ((s, e), (s, s + (translation.length : Int)), tag),
         ((e, (source.length : Int)),
          (s + (translation.length : Int),
           s + (translation.length : Int) + ((source.length : Int) - e)),
          "untranslated")]) := by
  have hlen : ((pySlice source e (source.length : Int)).length : Int)
      = (source.length : Int) - e := by
    rw [pySlice_length source e source.length (by omega) (by omega) (by omega)]
    omega
  simp only [replace_token]
  rw [if_neg (by simp)]
  simp only [rtLoop, rtStep]
  rw [if_pos (by omega)]
  rw [if_neg (by omega), if_pos (by omega)]
  rw [if_neg (by omega), if_pos (by omega)]
  simp only [rtLoop]
  simp only [List.nil_append, List.append_nil, hlen]
  norm_num

/-- C1 witness: the spec's literal splicer example, source `"abc def ghi"`,
replace `[4,7]` with `"WORD"`: draft `"abc WORD ghi"`, dst offsets
`(0,4), (4,8), (8,12)`. -/
theorem replace_token_strict_inside_witness :
    replace_token "abc def ghi".toList (4, 7) "WORD".toList "abc def ghi".toList
      [((0, 11), (0, 11), "untranslated")] "confirmed"
    = .ok ("abc WORD ghi".toList,
        [((0, 4), (0, 4), "untranslated"),
         ((4, 7), (4, 8), "confirmed"),
         ((7, 11), (8, 12), "untranslated")]) := by
  have h := replace_token_strict_inside "abc def ghi".toList "WORD".toList "confirmed"
    4 7 (by decide) (by decide) (by decide)
  exact h.trans (by rfl)

theorem rtLoop_all_before (source draftFull translation : List Char) (s e : Int)
    (tag : String) (l : List Seg) (st : RState)
    (h : ∀ m ∈ l, ¬ (max s m.1.1 < min e m.1.2) ∧ m.1.2 < e) :
    rtLoop source draftFull translation s e tag st l
    = .ok { st with
        meta := st.meta ++ l,
        draft := st.draft ++ (l.map (fun m => pySlice draftFull m.2.1.1 m.2.1.2)).flatten } := by
  induction l generalizing st with
  | nil => simp [rtLoop]
  | cons m rest ih =>
    have hm := h m (by simp)
    have hstep : rtStep source draftFull translation s e tag st m
        = .ok { st with
            draft := st.draft ++ pySlice draftFull m.2.1.1 m.2.1.2,
            meta := st.meta ++ [m] } := by
      simp only [rtStep]
      rw [if_neg hm.1, if_pos hm.2]
    simp only [rtLoop, hstep]
    rw [ih _ (fun x hx => h x (by simp [hx]))]
    simp

theorem rtLoop_err_after (source draftFull translation : List Char) (s e : Int)
    (tag : String) (l : List Seg) (st : RState) (hod : st.odiff = none)
    (hno : ∀ m ∈ l, ¬ (max s m.1.1 < min e m.1.2)) (hex : ∃ m ∈ l, e ≤ m.1.2) :
    ∃ msg, rtLoop source draftFull translation s e tag st l = .error msg := by
  induction l generalizing st with
  | nil => simp at hex
  | cons m rest ih =>
    have hm := hno m (by simp)
    by_cases hc : m.1.2 < e
    · have hstep : rtStep source draftFull translation s e tag st m
          = .ok { st with
              draft := st.draft ++ pySlice draftFull m.2.1.1 m.2.1.2,
              meta := st.meta ++ [m] } := by
        simp only [rtStep]
        rw [if_neg hm, if_pos hc]
      simp only [rtLoop, hstep]
      refine ih _ hod (fun x hx => hno x (by simp [hx])) ?_
      rcases hex with ⟨x, hx, hxe⟩
      rcases List.mem_cons.mp hx with h1 | h1
      · exfalso
        rw [h1] at hxe
        omega
      · exact ⟨x, h1, hxe⟩
    · have hstep : rtStep source draftFull translation s e tag st m
          = .error "UnboundLocalError: local variable offset_diff referenced before assignment" := by
        simp only [rtStep]
        rw [if_neg hm, if_neg hc, hod]
      simp only [rtLoop, hstep]
      exact ⟨_, rfl⟩

/-- C8 counterexample: a call where no segment of the non-empty meta
intersects the token offset but `replace_token` silently returns the
accumulated draft with the edit dropped and the meta unchanged (the token
offset `[3,4]` lies wholly after the single segment `[0,2)`). -/
theorem replace_token_silent_drop :
    replace_token "ab".toList (3, 4) "T".toList "ab".toList
      [((0, 2), (0, 2), "untranslated")] "confirmed"
    = .ok ("ab".toList, [((0, 2), (0, 2), "untranslated")]) := rfl

/-- C8 amended: on a non-empty meta none of whose segments intersects the
token offset `[s,e]`, `replace_token` fails (with the unbound
`offset_diff`) iff some segment ends at or after `e`; if every segment
ends before `e` it silently returns the concatenated dst slices and the
unchanged meta, dropping the edit. -/
theorem replace_token_no_intersection (source translation draft : List Char)
    (tag : String) (s e : Int) (meta : List Seg) (hne : meta ≠ [])
    (hno : ∀ m ∈ meta, ¬ (max s m.1.1 < min e m.1.2)) :
    ((∃ m ∈ meta, e ≤ m.1.2) →
      ∃ msg, replace_token source (s, e) translation draft meta tag = .error msg)
    ∧ ((∀ m ∈ meta, m.1.2 < e) →
      replace_token source (s, e) translation draft meta tag
      = .ok ((meta.map (fun m => pySlice draft m.2.1.1 m.2.1.2)).flatten, meta)) := by
  constructor
  · intro hex
    rcases rtLoop_err_after source draft translation s e tag meta
      ⟨[], [], none, none, none⟩ rfl hno hex with ⟨msg, hmsg⟩
    refine ⟨msg, ?_⟩
    simp only [replace_token]
    rw [if_neg hne, hmsg]
  · intro hall
    simp only [replace_token]
    rw [if_neg hne]
    rw [rtLoop_all_before source draft translation s e tag meta
      ⟨[], [], none, none, none⟩ (fun m hm => ⟨hno m hm, hall m hm⟩)]
    simp

/-- C8 amended witness: token offset `[0,1]` lies before the only segment
`[1,3)`, so the call surfaces an error. -/
theorem replace_token_no_intersection_witness :
    ∃ msg, replace_token "ab".toList (0, 1) "T".toList "ab".toList
      [((1, 3), (0, 2), "untranslated")] "confirmed" = .error msg := by
  refine (replace_token_no_intersection "ab".toList "T".toList "ab".toList
    "confirmed" 0 1 [((1, 3), (0, 2), "untranslated")] (by decide) ?_).1 ?_
  · intro m hm
    simp at hm
    rw [hm]
    simp
  · exact ⟨((1, 3), (0, 2), "untranslated"), by simp, by norm_num⟩

/-! ## Meta coverage invariant (spec section 8, C2) -/

/-- The src ranges of `l` are ordered, non-overlapping and contiguous,
starting at `a` and ending at `b`. -/
def srcChain : Int → List Seg → Int → Prop
  | a, [], b => a = b
  | a, m :: rest, b => m.1.1 = a ∧ a ≤ m.1.2 ∧ srcChain m.1.2 rest b

/-- The dst ranges of `l` are ordered, non-overlapping and contiguous,
starting at `a` and ending at `b`. -/
def dstChain : Int → List Seg → Int → Prop
  | a, [], b => a = b
  | a, m :: rest, b => m.2.1.1 = a ∧ a ≤ m.2.1.2 ∧ dstChain m.2.1.2 rest b

instance instDecSrcChain : (a : Int) → (l : List Seg) → (b : Int) → Decidable (srcChain a l b)
  | a, [], b => inferInstanceAs (Decidable (a = b))
  | a, m :: rest, b =>
    have : Decidable (srcChain m.1.2 rest b) := instDecSrcChain m.1.2 rest b
    inferInstanceAs (Decidable (_ ∧ _ ∧ _))

instance instDecDstChain : (a : Int) → (l : List Seg) → (b : Int) → Decidable (dstChain a l b)
  | a, [], b => inferInstanceAs (Decidable (a = b))
  | a, m :: rest, b =>
    have : Decidable (dstChain m.2.1.2 rest b) := instDecDstChain m.2.1.2 rest b
    inferInstanceAs (Decidable (_ ∧ _ ∧ _))

theorem srcChain_le {a b : Int} {l : List Seg} (h : srcChain a l b) : a ≤ b := by
  induction l generalizing a with
  | nil => simp [srcChain] at h; omega
  | cons m rest ih =>
    rcases h with ⟨h1, h2, h3⟩
    have := ih h3
    omega

theorem dstChain_le {a b : Int} {l : List Seg} (h : dstChain a l b) : a ≤ b := by
  induction l generalizing a with
  | nil => simp [dstChain] at h; omega
  | cons m rest ih =>
    rcases h with ⟨h1, h2, h3⟩
    have := ih h3
    omega

theorem srcChain_ends_le {a b : Int} {l : List Seg} (h : srcChain a l b) :
    ∀ m ∈ l, m.1.2 ≤ b := by
  induction l generalizing a with
  | nil => simp
  | cons m rest ih =>
    rcases h with ⟨h1, h2, h3⟩
    intro x hx
    rcases List.mem_cons.mp hx with h4 | h4
    · subst h4
      exact srcChain_le h3
    · exact ih h3 x h4

theorem srcChain_append {a b : Int} {l1 l2 : List Seg} :
    srcChain a (l1 ++ l2) b ↔ ∃ c, srcChain a l1 c ∧ srcChain c l2 b := by
  induction l1 generalizing a with
  | nil =>
    constructor
    · intro h
      exact ⟨a, rfl, h⟩
    · rintro ⟨c, hc, h⟩
      simp only [srcChain] at hc
      subst hc
      simpa using h
  | cons m rest ih =>
    constructor
    · intro h
      have h' : m.1.1 = a ∧ a ≤ m.1.2 ∧ srcChain m.1.2 (rest ++ l2) b := h
      rcases h' with ⟨h1, h2, h3⟩
      rcases ih.mp h3 with ⟨c, h4, h5⟩
      exact ⟨c, ⟨h1, h2, h4⟩, h5⟩
    · rintro ⟨c, hc, h5⟩
      have hc' : m.1.1 = a ∧ a ≤ m.1.2 ∧ srcChain m.1.2 rest c := hc
      rcases hc' with ⟨h1, h2, h3⟩
      exact ⟨h1, h2, ih.mpr ⟨c, h3, h5⟩⟩

theorem dstChain_append {a b : Int} {l1 l2 : List Seg} :
    dstChain a (l1 ++ l2) b ↔ ∃ c, dstChain a l1 c ∧ dstChain c l2 b := by
  induction l1 generalizing a with
  | nil =>
    constructor
    · intro h
      exact ⟨a, rfl, h⟩
    · rintro ⟨c, hc, h⟩
      simp only [dstChain] at hc
      subst hc
      simpa using h
  | cons m rest ih =>
    constructor
    · intro h
      have h' : m.2.1.1 = a ∧ a ≤ m.2.1.2 ∧ dstChain m.2.1.2 (rest ++ l2) b := h
      rcases h' with ⟨h1, h2, h3⟩
      rcases ih.mp h3 with ⟨c, h4, h5⟩
      exact ⟨c, ⟨h1, h2, h4⟩, h5⟩
    · rintro ⟨c, hc, h5⟩
      have hc' : m.2.1.1 = a ∧ a ≤ m.2.1.2 ∧ dstChain m.2.1.2 rest c := hc
      rcases hc' with ⟨h1, h2, h3⟩
      exact ⟨h1, h2, ih.mpr ⟨c, h3, h5⟩⟩

/-- Shift the dst ranges of every segment by `diff` (what the splicer does
to the segments after the edit point). -/
def shiftDst (diff : Int) (l : List Seg) : List Seg :=
  l.map (fun m => (m.1, (m.2.1.1 + diff, m.2.1.2 + diff), m.2.2))

theorem srcChain_shiftDst {a b diff : Int} {l : List Seg} (h : srcChain a l b) :
    srcChain a (shiftDst diff l) b := by
  induction l generalizing a with
  | nil => simpa [shiftDst, srcChain] using h
  | cons m rest ih =>
    rcases h with ⟨h1, h2, h3⟩
    exact ⟨h1, h2, ih h3⟩

theorem dstChain_shiftDst {a b diff : Int} {l : List Seg} (h : dstChain a l b) :
    dstChain (a + diff) (shiftDst diff l) (b + diff) := by
  induction l generalizing a with
  | nil =>
    simp only [dstChain] at h
    subst h
    rfl
  | cons m rest ih =>
    rcases h with ⟨h1, h2, h3⟩
    refine ⟨?_, ?_, ih h3⟩ <;> simp <;> omega

theorem pySlice_append_adjacent {α : Type} (l : List α) (a c b : Int)
    (h0 : 0 ≤ a) (hac : a ≤ c) (hcb : c ≤ b) (hb : b ≤ l.length) :
    pySlice l a c ++ pySlice l c b = pySlice l a b := by
  rw [pySlice_of_bounds l a c (by omega) (by omega) (by omega) (by omega),
      pySlice_of_bounds l c b (by omega) (by omega) (by omega) (by omega),
      pySlice_of_bounds l a b (by omega) (by omega) (by omega) (by omega)]
  have h1 : l.take c.toNat = (l.take b.toNat).take c.toNat := by
    rw [List.take_take]
    congr 1
    omega
  rw [h1]
  have h2 : ∀ (t : List α) (i j : Nat), i ≤ j → j ≤ t.length →
      (t.take j).drop i ++ t.drop j = t.drop i := by
    intro t i j hij hj
    have := List.take_append_drop j t
    conv_rhs => rw [← this]
    rw [List.drop_append_of_le_length (by simp [List.length_take]; omega)]
  have h3 : (l.take b.toNat).length = b.toNat := by
    rw [List.length_take]
    omega
  exact h2 (l.take b.toNat) a.toNat c.toNat (by omega) (by omega)

theorem pySlice_nil_of_eq {α : Type} (l : List α) (a : Int)
    (h0 : 0 ≤ a) (ha : a ≤ l.length) : pySlice l a a = [] := by
  have := pySlice_length l a a h0 (by omega) ha
  rcases h : pySlice l a a with _ | ⟨x, xs⟩
  · rfl
  · rw [h] at this
    simp at this

/-- The concatenation of the dst slices of a contiguous chain from `a` to
`b` is the slice `[a,b)` of the underlying draft. -/
theorem flatten_dst_slices (d : List Char) {a b : Int} {l : List Seg}
    (h : dstChain a l b) (h0 : 0 ≤ a) (hb : b ≤ d.length) :
    (l.map (fun m => pySlice d m.2.1.1 m.2.1.2)).flatten = pySlice d a b := by
  induction l generalizing a with
  | nil =>
    simp only [dstChain] at h
    subst h
    simp [pySlice_nil_of_eq d a h0 (by omega)]
  | cons m rest ih =>
    rcases h with ⟨h1, h2, h3⟩
    have hmb : m.2.1.2 ≤ b := dstChain_le h3
    simp only [List.map_cons, List.flatten_cons]
    rw [ih h3 (by omega), h1]
    exact pySlice_append_adjacent d a m.2.1.2 b (by omega) (by omega) (by omega) hb

theorem rtLoop_append (source draftFull translation : List Char) (s e : Int)
    (tag : String) (l1 l2 : List Seg) (st : RState) :
    rtLoop source draftFull translation s e tag st (l1 ++ l2)
    = match rtLoop source draftFull translation s e tag st l1 with
      | .error msg => .error msg
      | .ok st' => rtLoop source draftFull translation s e tag st' l2 := by
  induction l1 generalizing st with
  | nil => simp [rtLoop]
  | cons m rest ih =>
    simp only [List.cons_append, rtLoop]
    rcases rtStep source draftFull translation s e tag st m with msg | st'
    · rfl
    · exact ih st'

theorem rtStep_hit (source draftFull translation : List Char) (tag : String)
    (s e g0 g1 d0 d1 : Int) (st0 : String) (st : RState)
    (hg0 : 0 ≤ g0) (hg0s : g0 ≤ s) (hse : s < e) (heg1 : e ≤ g1)
    (hg1 : g1 ≤ (source.length : Int)) :
    rtStep source draftFull translation s e tag st ((g0, g1), (d0, d1), st0)
    = .ok { st with
        meta := st.meta
          ++ (if g0 < s then [((g0, s), (d0, d0 + (s - g0)), "untranslated")] else [])
          ++ [((s, e), (d0 + (s - g0), d0 + (s - g0) + (translation.length : Int)), tag)]
          ++ (if e < g1 then
                [((e, g1),
                  (d0 + (s - g0) + (translation.length : Int),
                   d0 + (s - g0) + (translation.length : Int) + (g1 - e)), "untranslated")]
              else []),
        draft := st.draft ++ pySlice source g0 s ++ translation ++ pySlice source e g1,
        t0 := some (d0 + (s - g0)),
        t1 := some (d0 + (s - g0) + (translation.length : Int)),
        odiff := some (d0 + (s - g0) + (translation.length : Int) + (g1 - e) - d1) } := by
  have htrail : ((pySlice source e g1).length : Int) = g1 - e := by
    rw [pySlice_length source e g1 (by omega) (by omega) (by omega)]
    omega
  have hsect : max s g0 < min e g1 := by omega
  rcases eq_or_lt_of_le hg0s with heq0 | hlt0
  · -- s = g0 : no leading prefix
    subst heq0
    have hnil0 : pySlice source g0 g0 = [] :=
      pySlice_nil_of_eq source g0 (by omega) (by omega)
    rcases eq_or_lt_of_le heg1 with heq1 | hlt1
    · -- e = g1 : no trailing suffix
      subst heq1
      have hnil1 : pySlice source e e = [] :=
        pySlice_nil_of_eq source e (by omega) (by omega)
      simp only [rtStep, if_pos hsect, if_pos (rfl : g0 = g0),
        if_neg (show ¬ g0 < g0 by omega), if_pos (rfl : e = e),
        if_neg (show ¬ e < e by omega)]
      simp [hnil0, hnil1]
    · simp only [rtStep, if_pos hsect, if_pos (rfl : g0 = g0),
        if_neg (show ¬ g0 < g0 by omega),
        if_neg (show ¬ e = g1 by omega), if_pos hlt1]
      simp [hnil0, htrail, List.append_assoc, add_assoc]
    -- omegas close residual Int rearrangements if simp leaves any
  · -- g0 < s : leading untranslated prefix
    have hne0 : ¬ s = g0 := by omega
    have hgt0 : s > g0 := hlt0
    rcases eq_or_lt_of_le heg1 with heq1 | hlt1
    · subst heq1
      have hnil1 : pySlice source e e = [] :=
        pySlice_nil_of_eq source e (by omega) (by omega)
      simp only [rtStep, if_pos hsect, if_neg hne0, if_pos hgt0, gt_iff_lt,
        if_pos hlt0, if_pos (rfl : e = e), if_neg (show ¬ e < e by omega)]
      simp [hnil1, List.append_assoc, add_assoc]
    · simp only [rtStep, if_pos hsect, if_neg hne0, if_pos hgt0, gt_iff_lt,
        if_pos hlt0, if_neg (show ¬ e = g1 by omega), if_pos hlt1]
      simp [htrail, List.append_assoc, add_assoc]

theorem rtLoop_post (source draftFull translation : List Char) (s e : Int)
    (tag : String) (post : List Seg) (st : RState) (diff : Int)
    (hod : st.odiff = some diff) {c b : Int} (hsrc : srcChain c post b) (hec : e ≤ c) :
    rtLoop source draftFull translation s e tag st post
    = .ok { st with
        meta := st.meta ++ shiftDst diff post,
        draft := st.draft
          ++ (post.map (fun m => pySlice draftFull m.2.1.1 m.2.1.2)).flatten } := by
  induction post generalizing st c with
  | nil => simp [rtLoop, shiftDst]
  | cons m rest ih =>
    rcases hsrc with ⟨h1, h2, h3⟩
    have hstep : rtStep source draftFull translation s e tag st m
        = .ok { st with
            draft := st.draft ++ pySlice draftFull m.2.1.1 m.2.1.2,
            meta := st.meta ++ [(m.1, (m.2.1.1 + diff, m.2.1.2 + diff), m.2.2)] } := by
      simp only [rtStep]
      rw [if_neg (by omega), if_neg (by omega), hod]
    simp only [rtLoop, hstep]
    rw [ih ({ st with
        draft := st.draft ++ pySlice draftFull m.2.1.1 m.2.1.2,
        meta := st.meta ++ [(m.1, (m.2.1.1 + diff, m.2.1.2 + diff), m.2.2)] })
      hod h3 (by omega)]
    simp [shiftDst]

/-- C2: if the input meta is an ordered, non-overlapping, contiguous
segmentation covering `[0, len source)` on the src side and
`[0, len draft)` on the dst side, and the token offset `[s,e]` lies inside
one segment, then `replace_token` succeeds and the returned meta is again
ordered and contiguous on both sides (src side still covering
`[0, len source)`, dst side covering `[0, len newDraft)`), and the returned
draft is the concatenation, in segment order, of the dst-range slices of
the returned meta. -/
theorem replace_token_preserves_coverage
    (source draft translation : List Char) (tag st0 : String)
    (pre post : List Seg) (g0 g1 d0 d1 s e : Int)
    (hgs : g0 ≤ s) (heg : e ≤ g1) (hse : s < e)
    (hsrc : srcChain 0 (pre ++ ((g0, g1), (d0, d1), st0) :: post) (source.length : Int))
    (hdst : dstChain 0 (pre ++ ((g0, g1), (d0, d1), st0) :: post) (draft.length : Int)) :
    ∃ newDraft newMeta,
      replace_token source (s, e) translation draft
        (pre ++ ((g0, g1), (d0, d1), st0) :: post) tag = .ok (newDraft, newMeta)
      ∧ srcChain 0 newMeta (source.length : Int)
      ∧ dstChain 0 newMeta (newDraft.length : Int)
      ∧ (newMeta.map (fun m => pySlice newDraft m.2.1.1 m.2.1.2)).flatten = newDraft := by
  -- decompose the input chains
  rcases srcChain_append.mp hsrc with ⟨c1, hpreS, hconsS⟩
  rcases hconsS with ⟨hc1, hcg, hpostS⟩
  rcases dstChain_append.mp hdst with ⟨c2, hpreD, hconsD⟩
  rcases hconsD with ⟨hc2, hcd, hpostD⟩
  simp only at hc1 hcg hc2 hcd hpostS hpostD
  have hg0 : 0 ≤ g0 := by have := srcChain_le hpreS; omega
  have hg1N : g1 ≤ (source.length : Int) := srcChain_le hpostS
  have hd0 : 0 ≤ d0 := by have := dstChain_le hpreD; omega
  have hd1D : d1 ≤ (draft.length : Int) := dstChain_le hpostD
  -- abbreviations
  set L : Int := (translation.length : Int) with hL
  set N : Int := (source.length : Int) with hN
  set D : Int := (draft.length : Int) with hD
  have hLpos : 0 ≤ L := by positivity
  set newEnd : Int := d0 + (s - g0) + L + (g1 - e) with hNewEnd
  set diff : Int := newEnd - d1 with hdiff
  set midMeta : List Seg :=
    (if g0 < s then [((g0, s), (d0, d0 + (s - g0)), "untranslated")] else [])
    ++ [((s, e), (d0 + (s - g0), d0 + (s - g0) + L), tag)]
    ++ (if e < g1 then
          [((e, g1), (d0 + (s - g0) + L, d0 + (s - g0) + L + (g1 - e)), "untranslated")]
        else []) with hmidMeta
  set midDraft : List Char :=
    pySlice source g0 s ++ translation ++ pySlice source e g1 with hmidDraft
  set preFlat : List Char :=
    (pre.map (fun m => pySlice draft m.2.1.1 m.2.1.2)).flatten with hpreFlat
  set postFlat : List Char :=
    (post.map (fun m => pySlice draft m.2.1.1 m.2.1.2)).flatten with hpostFlat
  -- the three stages of the loop
  have hpre_all : ∀ m ∈ pre, ¬ (max s m.1.1 < min e m.1.2) ∧ m.1.2 < e := by
    intro m hm
    have hend := srcChain_ends_le hpreS m hm
    constructor <;> omega
  have h1 := rtLoop_all_before source draft translation s e tag pre
    ⟨[], [], none, none, none⟩ hpre_all
  have h2 := rtStep_hit source draft translation tag s e g0 g1 d0 d1 st0
    ⟨pre, preFlat, none, none, none⟩ hg0 hgs hse heg (by omega)
  have h3 := rtLoop_post source draft translation s e tag post
    ⟨pre ++ midMeta, preFlat ++ midDraft, some (d0 + (s - g0)),
     some (d0 + (s - g0) + L), some diff⟩ diff rfl hpostS heg
  -- length bookkeeping
  have hlen1 : preFlat = pySlice draft 0 d0 := by
    rw [hpreFlat]
    exact flatten_dst_slices draft (by rw [hc2]; exact hpreD) (by omega) (by omega)
  have hlen1' : (preFlat.length : Int) = d0 := by
    rw [hlen1, pySlice_length draft 0 d0 (by omega) (by omega) (by omega)]
    omega
  have hlen2 : (midDraft.length : Int) = (s - g0) + L + (g1 - e) := by
    rw [hmidDraft]
    simp only [List.length_append]
    push_cast
    rw [pySlice_length source g0 s (by omega) (by omega) (by omega),
        pySlice_length source e g1 (by omega) (by omega) (by omega)]
    omega
  have hlen3 : postFlat = pySlice draft d1 D := by
    rw [hpostFlat]
    exact flatten_dst_slices draft hpostD (by omega) (by omega)
  have hlen3' : (postFlat.length : Int) = D - d1 := by
    rw [hlen3, pySlice_length draft d1 D (by omega) (by omega) (by omega)]
    omega
  have htot : (((preFlat ++ midDraft ++ postFlat).length : Nat) : Int) = D + diff := by
    simp only [List.length_append]
    push_cast
    omega
  -- the dst chain of the result
  have hdstFinal : dstChain 0 (pre ++ midMeta ++ shiftDst diff post)
      (((preFlat ++ midDraft ++ postFlat).length : Nat) : Int) := by
    rw [htot]
    refine dstChain_append.mpr
      ⟨newEnd, dstChain_append.mpr ⟨d0, by rw [hc2]; exact hpreD, ?_⟩, ?_⟩
    · by_cases hx : g0 < s <;> by_cases hy : e < g1 <;>
        simp only [hmidMeta, hx, hy, if_true, if_false, List.cons_append,
          List.nil_append, List.singleton_append] <;>
        refine ?_ <;>
        simp [dstChain, hNewEnd] <;> omega
    · have hsh := @dstChain_shiftDst d1 D diff post hpostD
      have heq1 : d1 + diff = newEnd := by omega
      rw [heq1] at hsh
      exact hsh
  refine ⟨preFlat ++ midDraft ++ postFlat, pre ++ midMeta ++ shiftDst diff post,
    ?_, ?_, hdstFinal, ?_⟩
  · -- the computation
    have h1' : rtLoop source draft translation s e tag
        ⟨[], [], none, none, none⟩ pre = .ok ⟨pre, preFlat, none, none, none⟩ := by
      rw [h1]
      simp [hpreFlat]
    have h2' : rtStep source draft translation s e tag
        ⟨pre, preFlat, none, none, none⟩ ((g0, g1), (d0, d1), st0)
        = .ok ⟨pre ++ midMeta, preFlat ++ midDraft, some (d0 + (s - g0)),
            some (d0 + (s - g0) + L), some diff⟩ := by
      rw [h2]
      congr 1
      simp [hmidMeta, hmidDraft, hdiff, hNewEnd]
    have h3' : rtLoop source draft translation s e tag
        ⟨pre ++ midMeta, preFlat ++ midDraft, some (d0 + (s - g0)),
         some (d0 + (s - g0) + L), some diff⟩ post
        = .ok ⟨pre ++ midMeta ++ shiftDst diff post,
            preFlat ++ midDraft ++ postFlat, some (d0 + (s - g0)),
            some (d0 + (s - g0) + L), some diff⟩ := by
      rw [h3]
    simp only [replace_token]
    rw [if_neg (by simp)]
    simp only [rtLoop_append, h1', rtLoop, h2', h3']
  · -- src side chain of the result
    refine srcChain_append.mpr
      ⟨g1, srcChain_append.mpr ⟨g0, by rw [hc1]; exact hpreS, ?_⟩,
       srcChain_shiftDst hpostS⟩
    by_cases hx : g0 < s <;> by_cases hy : e < g1 <;>
      simp only [hmidMeta, hx, hy, if_true, if_false, List.cons_append,
        List.nil_append, List.singleton_append] <;>
      refine ?_ <;>
      simp [srcChain] <;> omega
  · -- the draft equals the concatenation of the dst slices of the meta
    have := flatten_dst_slices (preFlat ++ midDraft ++ postFlat) hdstFinal
      (by omega) (by omega)
    rw [this, pySlice_whole]

/-- C2 witness: the coverage invariant at the spec's same-length splicer
example. -/
theorem replace_token_preserves_coverage_witness :
    ∃ newDraft newMeta,
      replace_token "abc def ghi".toList (4, 7) "XYZ".toList "abc def ghi".toList
        [((0, 11), (0, 11), "untranslated")] "confirmed" = .ok (newDraft, newMeta)
      ∧ srcChain 0 newMeta ("abc def ghi".toList.length : Int)
      ∧ dstChain 0 newMeta (newDraft.length : Int)
      ∧ (newMeta.map (fun m => pySlice newDraft m.2.1.1 m.2.1.2)).flatten = newDraft := by
  have h := replace_token_preserves_coverage "abc def ghi".toList "abc def ghi".toList
    "XYZ".toList "confirmed" "untranslated" [] [] 0 11 0 11 4 7
    (by decide) (by decide) (by decide) (by decide) (by decide)
  simpa using h

/-! ## Tokenizer (nlp_crud.py 22-146) -/

/-- Stopwords of a language: `{prepositions, postpositions}` (lists, as the
code concatenates them with `+`). -/
structure StopWords where
  prepositions : List (List Char)
  postpositions : List (List Char)
deriving DecidableEq

/-- Modelled from the spec: `utils.punctuations()+utils.numbers()` (the
`utils` module is not part of the sources at hand).  The spec only says it
is a set of punctuation characters together with the digits, so a concrete
such set is fixed here; the theorems below use sentences containing none of
these characters, so their statements do not depend on the choice. -/
def defaultPunctuations : List Char :=
  ['!', '"', '#', '$', '%', '&', '(', ')', '*', '+', ',', '-', '.', '/',
   ':', ';', '<', '=', '>', '?', '@', '[', ']', '^', '_', '|', '~',
   '0', '1', '2', '3', '4', '5', '6', '7', '8', '9']

/-- `re.sub(r'[\n\r]+', ' ', text)`: each maximal run of CR/LF characters
becomes a single space. -/
def collapseNewlines (l : List Char) : List Char :=
  (l.foldl
    (fun (acc : List Char × Bool) c =>
      if c = '\n' ∨ c = '\r' then (if acc.2 then acc else (acc.1 ++ [' '], true))
      else (acc.1 ++ [c], false))
    ([], false)).1

/-- `re.split('[<punct>]+', text)`: split at each maximal run of punctuation
characters (runs at the ends produce empty chunks, as in Python). -/
def splitOnPunct (punct : List Char) (l : List Char) : List (List Char) :=
  let r := l.foldl
    (fun (acc : List (List Char) × List Char × Bool) c =>
      if c ∈ punct then (if acc.2.2 then acc else (acc.1 ++ [acc.2.1], [], true))
      else (acc.1, acc.2.1 ++ [c], false))
    ([], [], false)
  r.1 ++ [r.2.1]

/-- `re.sub(r'\s+', '/', token)`: whitespace runs become single slashes
(used to build memory-trie keys). -/
def wsToSlash (l : List Char) : List Char :=
  (l.foldl
    (fun (acc : List Char × Bool) c =>
      if isPySpace c then (if acc.2 then acc else (acc.1 ++ ['/'], true))
      else (acc.1 ++ [c], false))
    ([], false)).1

/-- Python `key.split('/')` (single-character separator, keeps empties). -/
def splitOnSlash (l : List Char) : List (List Char) :=
  let r := l.foldl
    (fun (acc : List (List Char) × List Char) c =>
      if c = '/' then (acc.1 ++ [acc.2], []) else (acc.1, acc.2 ++ [c]))
    ([], [])
  r.1 ++ [r.2]

/-- `'/'.join(words)`. -/
def joinSlash (ws : List (List Char)) : List Char :=
  List.intercalate ['/'] ws

/-- `k1` is a path-wise key prefix of `k2` in a `pygtrie.StringTrie`
(labels separated by `/`). -/
def isPathPfx (k1 k2 : List Char) : Bool :=
  (splitOnSlash k1).isPrefixOf (splitOnSlash k2)

/-- `build_memory_trie` (nlp_crud.py 22-29): the trie is determined by its
key set, each key being a known token with whitespace replaced by `/`. -/
def build_memory_trie (translation_memory : List (List Char)) : List (List Char) :=
  translation_memory.map wsToSlash

/-- `memory_trie.longest_prefix(key)`: the longest stored key that is a
path-wise prefix of `key` (`none` when there is no match). -/
def longestMatch (memKeys : List (List Char)) (key : List Char) : Option (List Char) :=
  memKeys.foldl
    (fun best k =>
      if isPathPfx k key then
        match best with
        | none => some k
        | some b => if b.length < k.length then some k else some b
      else best)
    none

/-- The `###` sentinel that marks memory-trie matches. -/
def sentinelChars : List Char := ['#', '#', '#']

/-- Python `s.replace(pat, rep)` (left-to-right, non-overlapping; for an
empty `pat` the input is returned unchanged, a case the code never hits
since it only replaces `"###"`). -/
def pyReplaceAux (pat rep : List Char) : Nat → List Char → List Char
  | _, [] => []
  | 0, l => l
  | fuel + 1, c :: rest =>
    if pat ≠ [] ∧ pat.isPrefixOf (c :: rest) then
      rep ++ pyReplaceAux pat rep fuel ((c :: rest).drop pat.length)
    else c :: pyReplaceAux pat rep fuel rest

def pyReplace (pat rep l : List Char) : List Char :=
  pyReplaceAux pat rep l.length l

/-- The `while temp != ""` loop of `tokenize`'s memory-matching step
(nlp_crud.py 100-116).  `front`/`last` are `new_chunks` minus and including
its mutable last buffer.  The fuel counts loop iterations; Python loops
forever when the trie yields an empty-key match making no progress, which
the model reports as an error (the fuel is sufficient for every run that
makes progress, as each such iteration consumes at least one character of
`temp`). -/
def memoryChunkLoop (memKeys : List (List Char)) :
    Nat → List Char → List (List Char) → List Char → Except String (List (List Char))
  | 0, temp, front, last =>
    if temp = [] then .ok (front ++ [last])
    else .error "memory matching loop does not terminate"
  | fuel + 1, temp, front, last =>
    if temp = [] then .ok (front ++ [last])
    else
      let key := joinSlash (pySplit temp)
      match longestMatch memKeys key with
      | some k =>
        memoryChunkLoop memKeys fuel (temp.drop k.length)
          (front ++ [last, sentinelChars ++ k.map (fun c => if c = '/' then ' ' else c)]) []
      | none =>
        match temp.findIdx? (fun c => c = ' ') with
        | some idx =>
          memoryChunkLoop memKeys fuel (temp.drop (idx + 1)) front (last ++ temp.take (idx + 1))
        | none => memoryChunkLoop memKeys fuel [] front (last ++ temp)

/-- Split one chunk using the memory trie (one pass of the
`for chunk in chunks` loop at nlp_crud.py 98-117). -/
def memorySplit (memKeys : List (List Char)) (chunk : List Char) :
    Except String (List (List Char)) :=
  memoryChunkLoop memKeys (chunk.length + 1) chunk [] []

/-- The phrase-builder state machine of `find_phrases` (nlp_crud.py 46-65).
`statePre = true` is state `pre`. -/
def findPhrasesLoop (sw : StopWords) :
    List (List Char) → List Char → Bool → List (List Char) → List (List Char)
  | [], cur, _, acc => acc ++ [pyStrip cur]
  | w :: ws, cur, statePre, acc =>
    if statePre then
      if w ∈ sw.prepositions then findPhrasesLoop sw ws (cur ++ ' ' :: w) true acc
      else findPhrasesLoop sw ws (cur ++ ' ' :: w) false acc
    else
      if w ∈ sw.postpositions then findPhrasesLoop sw ws (cur ++ ' ' :: w) false acc
      else findPhrasesLoop sw ws w (decide (w ∈ sw.prepositions)) (acc ++ [pyStrip cur])

/-- `find_phrases(text, stop_words, include_phrases)` (nlp_crud.py 35-66). -/
def find_phrases (text : List Char) (sw : StopWords) (includePhrases : Bool) :
    List (List Char) :=
  let words := pySplit text
  if ¬ includePhrases then words
  else findPhrasesLoop sw words [] true []

/-- One input sentence of `tokenize`. -/
structure SentInput where
  sentenceId : Int
  sentence : List Char
deriving DecidableEq

/-- One recorded occurrence `{sentenceId, offset: [start, end]}`. -/
structure TokOcc where
  sentenceId : Int
  offset : Nat × Nat
deriving DecidableEq

/-- The value stored under a token in `unique_tokens`. -/
structure TokInfo where
  occurrences : List TokOcc
  translations : List (List Char)
deriving DecidableEq

/-- `unique_tokens` as an insertion-ordered association list. -/
abbrev Tokens := List (List Char × TokInfo)

/-- Record one occurrence under `phrase` (append to the existing entry, or
append a new entry at the end, like a Python dict). -/
def addOccurrence : Tokens → List Char → TokOcc → Tokens
  | [], phrase, occ => [(phrase, ⟨[occ], []⟩)]
  | (k, info) :: rest, phrase, occ =>
    if k = phrase then (k, ⟨info.occurrences ++ [occ], info.translations⟩) :: rest
    else (k, info) :: addOccurrence rest phrase occ

/-- The `for phrase in phrases` loop of `tokenize` (nlp_crud.py 128-145):
skip blank phrases and (unless `includeStopwords`) single stopwords, locate
each remaining phrase from the moving cursor `start`, and record the
occurrence; a phrase that cannot be found raises `NotAvailable`. -/
def processPhrases (sent : SentInput) (swList : List (List Char))
    (includeStopwords : Bool) :
    List (List Char) → Nat → Tokens → Except String Tokens
  | [], _, toks => .ok toks
  | ph :: rest, start, toks =>
    if pyStrip ph = [] then
      processPhrases sent swList includeStopwords rest start toks
    else if ¬ includeStopwords ∧ ph ∈ swList then
      processPhrases sent swList includeStopwords rest start toks
    else
      match pyFind sent.sentence ph start with
      | none => .error "Tokenization: token not found in sentence"
      | some off =>
        processPhrases sent swList includeStopwords rest (off + 1)
          (addOccurrence toks ph ⟨sent.sentenceId, (off, off + ph.length)⟩)

/-- The phrase list produced for one sentence (nlp_crud.py 92-125): newline
collapsing, punctuation chunking, optional memory-trie matching, and the
phrase builder (with `###` matches emitted verbatim). -/
def sentencePhrases (memKeys : List (List Char)) (useMemory includePhrases : Bool)
    (punct : List Char) (sw : StopWords) (sentence : List Char) :
    Except String (List (List Char)) := do
  let text := collapseNewlines sentence
  let chunks0 := (splitOnPunct punct text).map pyStrip
  let chunks ←
    if useMemory then do
      let updated ← chunks0.foldlM
        (fun acc chunk => do
          let pieces ← memorySplit memKeys chunk
          pure (acc ++ pieces))
        ([] : List (List Char))
      pure ((updated.map pyStrip).filter (fun c => c ≠ []))
    else pure chunks0
  pure (chunks.flatMap (fun chunk =>
    if sentinelChars.isPrefixOf chunk then [pyReplace sentinelChars [] chunk]
    else find_phrases chunk sw includePhrases))

/-- The `for sent in sent_list` loop of `tokenize`. -/
def tokenizeGo (memKeys : List (List Char))
    (useMemory includePhrases includeStopwords : Bool)
    (punct : List Char) (sw : StopWords) :
    List SentInput → Tokens → Except String Tokens
  | [], toks => .ok toks
  | sent :: rest, toks =>
    match sentencePhrases memKeys useMemory includePhrases punct sw sent.sentence with
    | .error msg => .error msg
    | .ok phrases =>
      match processPhrases sent (sw.prepositions ++ sw.postpositions)
          includeStopwords phrases 0 toks with
      | .error msg => .error msg
      | .ok toks' =>
        tokenizeGo memKeys useMemory includePhrases includeStopwords punct sw rest toks'

/-- `tokenize(db_, src_lang, sent_list, ...)` (nlp_crud.py 69-146).  The
database query for the translation memory of the source language is
replaced by the explicit token list `memory`; `punct` and `sw` are the
resolved `punctuations` and `stop_words` arguments. -/
def tokenize (memory : List (List Char)) (sentList : List SentInput)
    (useMemory includePhrases includeStopwords : Bool)
    (punct : List Char) (sw : StopWords) : Except String Tokens :=
  tokenizeGo (build_memory_trie memory) useMemory includePhrases includeStopwords
    punct sw sentList []

/-- C4 counterexample: tokenizing `"जीवन के वचन को देखो"` with
`prepositions = {"के"}`, `postpositions = {"को"}`, `useMemory = false`,
`includePhrases = true`, `includeStopwords = false` does not yield the two
tokens `"जीवन के वचन को"` and `"देखो"` claimed by the spec: in the `post`
state the phrase builder emits the buffer as soon as it sees the
preposition `"के"` (which is not a postposition), so `"के"` starts a new
phrase instead of being absorbed mid-phrase. -/
theorem tokenize_hindi_not_two_tokens :
    (tokenize [] [⟨1, "जीवन के वचन को देखो".toList⟩] false true false
        defaultPunctuations ⟨["के".toList], ["को".toList]⟩).map
      (fun toks => toks.map Prod.fst)
    ≠ .ok ["जीवन के वचन को".toList, "देखो".toList] := by
  intro h
  rw [show tokenize [] [⟨1, "जीवन के वचन को देखो".toList⟩] false true false
      defaultPunctuations ⟨["के".toList], ["को".toList]⟩
    = .ok [("जीवन".toList, ⟨[⟨1, (0, 4)⟩], []⟩),
           ("के वचन को".toList, ⟨[⟨1, (5, 14)⟩], []⟩),
           ("देखो".toList, ⟨[⟨1, (15, 19)⟩], []⟩)] from rfl] at h
  simp [Except.map] at h

/-- C4 amended: the same call yields exactly the three tokens `"जीवन"` at
`[0,4]`, `"के वचन को"` at `[5,14]` and `"देखो"` at `[15,19]` (the stranded
preposition `"के"` heads the middle phrase and the postposition `"को"`
tails it; the single-word phrases `"जीवन"` and `"देखो"` are kept because
they are not stopwords). -/
theorem tokenize_hindi_three_tokens :
    tokenize [] [⟨1, "जीवन के वचन को देखो".toList⟩] false true false
      defaultPunctuations ⟨["के".toList], ["को".toList]⟩
    = .ok [("जीवन".toList, ⟨[⟨1, (0, 4)⟩], []⟩),
           ("के वचन को".toList, ⟨[⟨1, (5, 14)⟩], []⟩),
           ("देखो".toList, ⟨[⟨1, (15, 19)⟩], []⟩)] := by rfl

/-! ## Tokenizer/offset round trip (C7) -/

theorem subFind_some {sub : List Char} :
    ∀ (l : List Char) (i j : Nat), subFind sub l i = some j →
      i ≤ j ∧ sub.isPrefixOf (l.drop (j - i)) := by
  intro l
  induction l with
  | nil =>
    intro i j h
    simp only [subFind] at h
    split at h
    · rename_i hp
      cases h
      simpa using hp
    · cases h
  | cons c t ih =>
    intro i j h
    simp only [subFind] at h
    split at h
    · rename_i hp
      cases h
      simpa using hp
    · have := ih (i + 1) j h
      refine ⟨by omega, ?_⟩
      have hij : j - i = (j - (i + 1)) + 1 := by omega
      rw [hij]
      simpa using this.2

theorem pyFind_slice {s sub : List Char} {start j : Nat}
    (h : pyFind s sub start = some j) :
    natSlice s j (j + sub.length) = sub := by
  simp only [pyFind] at h
  split at h
  · have h2 := subFind_some (s.drop start) start j h
    have h3 : (s.drop start).drop (j - start) = s.drop j := by
      rw [List.drop_drop]
      congr 1
      omega
    rw [h3] at h2
    have h4 : sub <+: s.drop j := by
      rw [← List.isPrefixOf_iff_prefix]
      exact h2.2
    rcases h4 with ⟨t, ht⟩
    simp only [natSlice]
    rw [← ht]
    simp
  · cases h

/-- Every recorded occurrence points back at a sentence of the input list
whose slice between the occurrence offsets is the token itself. -/
def tokensGood (sentList : List SentInput) (toks : Tokens) : Prop :=
  ∀ p ∈ toks, ∀ occ ∈ p.2.occurrences,
    ∃ sent ∈ sentList, sent.sentenceId = occ.sentenceId ∧
      natSlice sent.sentence occ.offset.1 occ.offset.2 = p.1

theorem addOccurrence_good {S : List SentInput} {toks : Tokens}
    {ph : List Char} {occ : TokOcc} (hg : tokensGood S toks)
    (hocc : ∃ sent ∈ S, sent.sentenceId = occ.sentenceId ∧
      natSlice sent.sentence occ.offset.1 occ.offset.2 = ph) :
    tokensGood S (addOccurrence toks ph occ) := by
  induction toks with
  | nil =>
    intro p hp o ho
    simp only [addOccurrence, List.mem_singleton] at hp
    subst hp
    simp only [List.mem_singleton] at ho
    subst ho
    exact hocc
  | cons q rest ih =>
    rcases q with ⟨k, info⟩
    intro p hp o ho
    simp only [addOccurrence] at hp
    by_cases hk : k = ph
    · rw [if_pos hk] at hp
      rcases List.mem_cons.mp hp with h1 | h1
      · subst h1
        simp only at ho
        rcases List.mem_append.mp ho with h2 | h2
        · exact hg (k, info) (by simp) o h2
        · simp only [List.mem_singleton] at h2
          subst h2
          rw [hk]
          exact hocc
      · exact hg p (by simp [h1]) o ho
    · rw [if_neg hk] at hp
      rcases List.mem_cons.mp hp with h1 | h1
      · subst h1
        exact hg (k, info) (by simp) o ho
      · exact ih (fun r hr => hg r (by simp [hr])) p h1 o ho

theorem processPhrases_good {S : List SentInput} {sent : SentInput}
    (hmem : sent ∈ S) (swList : List (List Char)) (inc : Bool) :
    ∀ (phrases : List (List Char)) (start : Nat) (toks res : Tokens),
      processPhrases sent swList inc phrases start toks = .ok res →
      tokensGood S toks → tokensGood S res := by
  intro phrases
  induction phrases with
  | nil =>
    intro start toks res h hg
    simp only [processPhrases] at h
    cases h
    exact hg
  | cons ph rest ih =>
    intro start toks res h hg
    simp only [processPhrases] at h
    split at h
    · exact ih start toks res h hg
    · split at h
      · exact ih start toks res h hg
      · split at h
        · cases h
        · rename_i off hoff
          refine ih (off + 1) _ res h ?_
          refine addOccurrence_good hg ⟨sent, hmem, rfl, ?_⟩
          exact pyFind_slice hoff

theorem tokenizeGo_good {S : List SentInput} (memKeys : List (List Char))
    (useMemory includePhrases includeStopwords : Bool)
    (punct : List Char) (sw : StopWords) :
    ∀ (rest : List SentInput) (toks res : Tokens),
      tokenizeGo memKeys useMemory includePhrases includeStopwords punct sw rest toks
        = .ok res →
      (∀ x ∈ rest, x ∈ S) → tokensGood S toks → tokensGood S res := by
  intro rest
  induction rest with
  | nil =>
    intro toks res h _ hg
    simp only [tokenizeGo] at h
    cases h
    exact hg
  | cons sent rs ih =>
    intro toks res h hsub hg
    simp only [tokenizeGo] at h
    split at h
    · cases h
    · split at h
      · cases h
      · rename_i toks' htoks'
        refine ih toks' res h (fun x hx => hsub x (by simp [hx])) ?_
        exact processPhrases_good (hsub sent (by simp)) _ _ _ _ _ _ htoks' hg

/-- C7: whenever `tokenize` succeeds, every recorded occurrence of every
token round-trips: the slice of the original sentence between the
occurrence's start and end offsets is the token string itself. -/
theorem tokenize_roundtrip (memory : List (List Char)) (sentList : List SentInput)
    (useMemory includePhrases includeStopwords : Bool) (punct : List Char)
    (sw : StopWords) (toks : Tokens)
    (h : tokenize memory sentList useMemory includePhrases includeStopwords punct sw
      = .ok toks) :
    ∀ p ∈ toks, ∀ occ ∈ p.2.occurrences,
      ∃ sent ∈ sentList, sent.sentenceId = occ.sentenceId ∧
        natSlice sent.sentence occ.offset.1 occ.offset.2 = p.1 := by
  have := @tokenizeGo_good sentList (build_memory_trie memory)
    useMemory includePhrases includeStopwords punct sw sentList [] toks h
    (fun x hx => hx) (by intro p hp; simp at hp)
  exact this

/-- C7 witness: a concrete successful tokenization together with the
round-trip property for the occurrence of `"cd"`. -/
theorem tokenize_roundtrip_witness :
    tokenize [] [⟨1, "ab cd".toList⟩] false true false ['.'] ⟨[], []⟩
      = .ok [("ab".toList, ⟨[⟨1, (0, 2)⟩], []⟩), ("cd".toList, ⟨[⟨1, (3, 5)⟩], []⟩)]
    ∧ (∃ sent ∈ [(⟨1, "ab cd".toList⟩ : SentInput)], sent.sentenceId = (1 : Int) ∧
        natSlice sent.sentence 3 5 = "cd".toList) := by
  constructor
  · rfl
  · exact tokenize_roundtrip [] [⟨1, "ab cd".toList⟩] false true false ['.'] ⟨[], []⟩
      [("ab".toList, ⟨[⟨1, (0, 2)⟩], []⟩), ("cd".toList, ⟨[⟨1, (3, 5)⟩], []⟩)] rfl
      ("cd".toList, ⟨[⟨1, (3, 5)⟩], []⟩) (by decide) ⟨1, (3, 5)⟩ (by decide)

/-! ## Suggestion trie: key enumeration, learner, lookup
(nlp_crud.py 819-926) -/

/-- An exact rational, kept as an unreduced integer fraction so that the
kernel can evaluate the arithmetic (`ℚ`'s operations normalise through
`Nat.gcd`, which does not reduce definitionally).  All weight arithmetic
this code performs on its dyadic inputs is exact in Python's floats too,
except the final normalising division, which Python rounds and this model
keeps exact.  Denominators stay positive throughout the computations
modelled here (weights are built from `1/k` and sums/products of such). -/
structure PyFloat where
  num : Int
  den : Int
deriving DecidableEq

def PyFloat.ofNat (n : Nat) : PyFloat := ⟨n, 1⟩

def PyFloat.add (a b : PyFloat) : PyFloat :=
  ⟨a.num * b.den + b.num * a.den, a.den * b.den⟩

def PyFloat.mul (a b : PyFloat) : PyFloat :=
  ⟨a.num * b.num, a.den * b.den⟩

def PyFloat.div (a b : PyFloat) : PyFloat :=
  ⟨a.num * b.den, a.den * b.num⟩

/-- `a ≤ b` as values (valid for positive denominators). -/
def PyFloat.ble (a b : PyFloat) : Bool :=
  a.num * b.den ≤ b.num * a.den

/-- `a == 0` as values (valid for non-zero denominators). -/
def PyFloat.isZero (a : PyFloat) : Bool :=
  a.num = 0

/-- The exact value of the fraction. -/
def PyFloat.toRat (a : PyFloat) : ℚ := (a.num : ℚ) / (a.den : ℚ)

/-- A suggestion-trie node value: translation → weight. -/
abbrev TrieVal := List (List Char × PyFloat)

/-- The suggestion trie as an insertion-ordered association list from key
strings (`tok[/L:w]*[/R:w]*`, split on `/` for path operations) to node
values. -/
abbrev Trie := List (List Char × TrieVal)

/-- `t.has_key(key)`. -/
def trieHasKey (t : Trie) (key : List Char) : Bool :=
  t.any (fun e => e.1 = key)

/-- `t[key]` for a present key. -/
def trieGet (t : Trie) (key : List Char) : Option TrieVal :=
  (t.find? (fun e => e.1 = key)).map Prod.snd

/-- `t[key] = value`: overwrite the existing entry or append a new one. -/
def trieSet : Trie → List Char → TrieVal → Trie
  | [], key, v => [(key, v)]
  | e :: rest, key, v =>
    if e.1 = key then (key, v) :: rest else e :: trieSet rest key v

/-- `t.has_subtrie(key)`: some stored key lies strictly below `key`. -/
def trieHasSubtrie (t : Trie) (key : List Char) : Bool :=
  t.any (fun e => isPathPfx key e.1 ∧ e.1 ≠ key)

/-- `t.values(key)`: the node values stored at or below `key`, in insertion
order. -/
def trieValues (t : Trie) (key : List Char) : List TrieVal :=
  (t.filter (fun e => isPathPfx key e.1)).map Prod.snd

/-- The per-level post-processing of `form_trie_keys`: sort the
accumulated keys by length, descending and stably, and in longest-only
mode keep the leading keys tied for the maximal length. -/
def postKeys (onlyLongest : Bool) (keys : List (List Char)) : List (List Char) :=
  let sortedKeys :=
    stableSortDesc (fun x y => (x : List Char).length ≥ (y : List Char).length) keys
  if ¬ onlyLongest then sortedKeys
  else
    (sortedKeys.foldl
      (fun (acc : List (List Char) × Nat × Bool) k =>
        if acc.2.2 then acc
        else if k.length < acc.2.1 then (acc.1, acc.2.1, true)
        else (acc.1 ++ [k], k.length, false))
      ([], 0, false)).1

/-- The recursion of `form_trie_keys`, with explicit fuel so that the
definition is structurally recursive (the fuel strictly exceeds
`|toLeft| + |toRight|` at every call, so the `0` case is never reached). -/
def formTrieKeysAux (onlyLongest : Bool) :
    Nat → List Char → List (List Char) → List (List Char) → List (List Char) →
    List (List Char)
  | 0, _, _, _, prevKeys => postKeys onlyLongest prevKeys
  | fuel + 1, pfx, toLeft, toRight, prevKeys =>
    let keys3 :=
      match toLeft, toRight with
      | [], [] => prevKeys
      | w1 :: tl, [] =>
        let av := "/L:".toList ++ w1
        formTrieKeysAux onlyLongest fuel (pfx ++ av) tl [] (prevKeys ++ [pfx ++ av])
      | [], w2 :: tr =>
        let bv := "/R:".toList ++ w2
        formTrieKeysAux onlyLongest fuel (pfx ++ bv) [] tr (prevKeys ++ [pfx ++ bv])
      | w1 :: tl, w2 :: tr =>
        let av := "/L:".toList ++ w1
        let bv := "/R:".toList ++ w2
        let keys1 := formTrieKeysAux onlyLongest fuel (pfx ++ av) tl tr
          (prevKeys ++ [pfx ++ av])
        let keys2 := formTrieKeysAux onlyLongest fuel (pfx ++ bv) tl tr
          (keys1 ++ [pfx ++ bv])
        let k1 := pfx ++ av ++ bv
        let k2 := pfx ++ bv ++ av
        let keysA := formTrieKeysAux onlyLongest fuel k1 tl tr (keys2 ++ [k1, k2])
        formTrieKeysAux onlyLongest fuel k2 tl tr keysA
    postKeys onlyLongest keys3

/-- `form_trie_keys(prefix, to_left, to_right, prev_keys, only_longest)`
(nlp_crud.py 819-852).  Both context lists are popped once up front (the
Python code pops them before branching and passes copies of the popped
lists to every recursive call, so a branch that consumes only the left
word still discards the current right word, and vice versa). -/
def form_trie_keys (pfx : List Char) (toLeft toRight : List (List Char))
    (prevKeys : List (List Char)) (onlyLongest : Bool) : List (List Char) :=
  formTrieKeysAux onlyLongest (toLeft.length + toRight.length + 1) pfx toLeft toRight
    prevKeys

/-- `to_left = [context[i] for i in range(index-1, -1, -1)]`: the words
left of `index`, nearest first (empty when `index ≤ 0`, as Python's
descending `range` is then empty). -/
def leftContext (context : List (List Char)) (index : Int) : List (List Char) :=
  if index ≤ 0 then [] else (context.take index.toNat).reverse

/-- `to_right = context[index+1:]` with Python slice semantics. -/
def rightContext (context : List (List Char)) (index : Int) : List (List Char) :=
  pySlice context (index + 1) context.length

/-- Python `context[i]` for an int index (negative indices wrap once). -/
def pyGet {α : Type} (l : List α) (i : Int) : Except String α :=
  if h : 0 ≤ i ∧ i < l.length then .ok (l.get ⟨i.toNat, by omega⟩)
  else if h2 : -(l.length : Int) ≤ i ∧ i < 0 then
    .ok (l.get ⟨(i + l.length).toNat, by omega⟩)
  else .error "IndexError: list index out of range"

/-- Python `list.index(x)`: first position of `x`, or `ValueError`. -/
def pyIndex {α : Type} [DecidableEq α] (l : List α) (x : α) : Except String Nat :=
  match l.findIdx? (fun y => y = x) with
  | some i => .ok i
  | none => .error "ValueError: x not in list"

/-- `build_trie(token_context__trans_list)` (nlp_crud.py 854-883): the
first field of a sample is either the token string or its index in the
context. -/
def build_trie (samples : List ((List Char ⊕ Int) × List (List Char) × List Char)) :
    Except String Trie :=
  samples.foldlM
    (fun t item => do
      let context := item.2.1
      let translation := item.2.2
      let (token, tokenIndex) ←
        match item.1 with
        | .inl tok => do
          let idx ← pyIndex context tok
          pure (tok, (idx : Int))
        | .inr idx => do
          let tok ← pyGet context idx
          pure (tok, idx)
      let toLeft := leftContext context tokenIndex
      let toRight := rightContext context tokenIndex
      let keys := form_trie_keys token toLeft toRight [token] true
      let w := PyFloat.div (PyFloat.ofNat 1) (PyFloat.ofNat keys.length)
      pure (keys.foldl
        (fun t key =>
          match trieGet t key with
          | some value =>
            match value.find? (fun p => p.1 = translation) with
            | some _ =>
              trieSet t key (value.map (fun p =>
                if p.1 = translation then (p.1, p.2.add w) else p))
            | none => trieSet t key (value ++ [(translation, w)])
          | none => trieSet t key [(translation, w)])
        t))
    []

/-- `get_translation_suggestion(db_, index, context, tree, ...)`
(nlp_crud.py 899-926).  The `trans` dictionary is an insertion-ordered
association list; the final sort is stable and descending on the
accumulated score, and the division by `total` raises Python's
`ZeroDivisionError` when candidates exist but `total` is zero. -/
def get_translation_suggestion (index0 : Int ⊕ List Char)
    (context : List (List Char)) (tree : Trie) :
    Except String (List (List Char × PyFloat)) := do
  let (word, index) ←
    match index0 with
    | .inl idx => do
      let w ← pyGet context idx
      pure (w, idx)
    | .inr w => do
      let idx ← pyIndex context w
      pure (w, (idx : Int))
  let toLeft := leftContext context index
  let toRight := rightContext context index
  let keys := form_trie_keys word toLeft toRight [word] false
  let acc := keys.foldl
    (fun (acc : List (List Char × PyFloat) × PyFloat) key =>
      if trieHasSubtrie tree key ∨ trieHasKey tree key then
        (trieValues tree key).foldl
          (fun acc nod =>
            nod.foldl
              (fun (acc : List (List Char × PyFloat) × PyFloat) sense =>
                let lv := PyFloat.ofNat (splitOnSlash key).length
                let trans :=
                  match acc.1.find? (fun p => p.1 = sense.1) with
                  | some _ =>
                    acc.1.map (fun p =>
                      if p.1 = sense.1 then (p.1, p.2.add ((sense.2.mul lv).mul lv))
                      else p)
                  | none => acc.1 ++ [(sense.1, (sense.2.mul lv).mul lv)]
                (trans, acc.2.add sense.2))
              acc)
          acc
      else acc)
    ([], PyFloat.ofNat 0)
  let sortedTrans := stableSortDesc (fun x y => PyFloat.ble y.2 x.2) acc.1
  if sortedTrans ≠ [] ∧ acc.2.isZero then
    .error "ZeroDivisionError: division by zero"
  else
    pure (sortedTrans.map (fun sense => (sense.1, sense.2.div acc.2)))

/-- C5: training `build_trie` on the single sample
`(index 1, context ["a","b","c"], translation "B")` enumerates exactly the
longest-only keys `b/L:a/R:c` and `b/R:c/L:a`, and stores translation `"B"`
with weight `1/2` (`1/K` for the `K = 2` keys) at each of them. -/
theorem build_trie_single_sample :
    form_trie_keys "b".toList ["a".toList] ["c".toList] ["b".toList] true
      = ["b/L:a/R:c".toList, "b/R:c/L:a".toList]
    ∧ build_trie [(.inr 1, ["a".toList, "b".toList, "c".toList], "B".toList)]
      = .ok [("b/L:a/R:c".toList, [("B".toList, ⟨1, 2⟩)]),
             ("b/R:c/L:a".toList, [("B".toList, ⟨1, 2⟩)])]
    ∧ PyFloat.toRat ⟨1, 2⟩ = 1 / 2 := by
  refine ⟨rfl, rfl, ?_⟩
  norm_num [PyFloat.toRat]

/-- C6 counterexample: looking up suggestions for index 1 in context
`["a","b","c"]` against the trie trained on that one sample does not return
`[("B", 1.0)]`: the score accumulator sums `weight · level²` while the
normaliser sums only `weight`, so the quotient is not a probability. -/
theorem lookup_after_training_not_one :
    ¬ ∃ w : PyFloat,
      (build_trie [(.inr 1, ["a".toList, "b".toList, "c".toList], "B".toList)]).bind
        (fun t => get_translation_suggestion (.inl 1)
          ["a".toList, "b".toList, "c".toList] t)
      = .ok [("B".toList, w)] ∧ w.toRat = 1 := by
  rintro ⟨w, hw, hv⟩
  rw [show (build_trie [(.inr 1, ["a".toList, "b".toList, "c".toList], "B".toList)]).bind
        (fun t => get_translation_suggestion (.inl 1)
          ["a".toList, "b".toList, "c".toList] t)
      = .ok [("B".toList, (⟨57344, 12288⟩ : PyFloat))] from rfl] at hw
  simp only [Except.ok.injEq, List.cons.injEq, Prod.mk.injEq, and_true, true_and] at hw
  rw [← hw] at hv
  norm_num [PyFloat.toRat] at hv

/-- C6 amended: the lookup returns `[("B", 14/3)]` — the two depth-3 keys
contribute `0.5·9` each, the two depth-2 prefixes `0.5·4` each and the
depth-1 prefix `0.5·1 + 0.5·1`, summing to `14`, while `total` is the plain weight
sum `3`, so the lone candidate scores `14/3`, not `1.0`. -/
theorem lookup_after_training :
    (build_trie [(.inr 1, ["a".toList, "b".toList, "c".toList], "B".toList)]).bind
      (fun t => get_translation_suggestion (.inl 1)
        ["a".toList, "b".toList, "c".toList] t)
    = .ok [("B".toList, ⟨57344, 12288⟩)]
    ∧ PyFloat.toRat ⟨57344, 12288⟩ = 14 / 3 := by
  refine ⟨rfl, ?_⟩
  norm_num [PyFloat.toRat]

/-! ## Context extraction and auto-translation (nlp_crud.py 655-671,
928-969) -/

/-- `extract_context(token, offset, sentence, window_size, punctuations)`
(nlp_crud.py 655-671): strip punctuation from the text before and after the
occurrence, split on whitespace, and keep the last `⌊W/2⌋` words on the
left and the first `⌈W/2⌉` on the right (`len ≥ W/2` is a float
comparison, here `2·len ≥ W`). -/
def extract_context (token : List Char) (offset : Nat × Nat)
    (sentence : List Char) (windowSize : Nat) (punct : List Char) :
    Nat × List (List Char) :=
  let front := sentence.take offset.1
  let rear := sentence.drop offset.2
  let front := front.filter (fun c => c ∉ punct)
  let rear := rear.filter (fun c => c ∉ punct)
  let front := pySplit front
  let rear := pySplit rear
  let front := if 2 * front.length ≥ windowSize
    then front.drop (front.length - windowSize / 2) else front
  let rear := if 2 * rear.length ≥ windowSize
    then rear.take ((windowSize + 1) / 2) else rear
  (front.length, front ++ [token] ++ rear)

/-- One sentence row of the drafts table. -/
structure SentenceRow where
  sentenceId : Int
  sentence : List Char
  draft : List Char
  draftMeta : List Seg
deriving DecidableEq

/-- The inner occurrence loop of `auto_translate` (nlp_crud.py 954-968):
extract the context of the occurrence, look up suggestions, and splice the
top one into the draft tagged `"suggestion"`; with no suggestion an empty
draft is seeded with the whole-sentence `untranslated` segment. -/
def autoTranslateOcc (suggTrie : Trie) (token : List Char)
    (sent : SentenceRow) (occ : TokOcc) : Except String SentenceRow := do
  let (index, context) := extract_context token occ.offset sent.sentence
    5 defaultPunctuations
  let suggestions ← get_translation_suggestion (.inl (index : Int)) context suggTrie
  match suggestions with
  | top :: _ => do
    let (draft, meta) ← replace_token sent.sentence
      ((occ.offset.1 : Int), (occ.offset.2 : Int)) top.1 sent.draft
      sent.draftMeta "suggestion"
    pure { sent with draft := draft, draftMeta := meta }
  | [] =>
    if sent.draft = [] then
      pure { sent with
        draft := sent.sentence,
        draftMeta := [((0, (sent.sentence.length : Int)),
          (0, (sent.sentence.length : Int)), "untranslated")] }
    else pure sent

/-- `auto_translate(db_, sentence_list, source_lang, target_lang,
punctuations, stop_words)` (nlp_crud.py 928-969).  The loaded suggestion
trie is the parameter `suggTrie` (cache/disk loading is outside the model);
the translation-memory tokens the tokenizer would query are `memory`;
`langStop` stands for `utils.stopwords(src_lang)`, used when no stopwords
are passed.  `extract_context` is called with its defaults, exactly as in
the source. -/
def auto_translate (memory : List (List Char)) (suggTrie : Trie)
    (langStop : StopWords) (sentences : List SentenceRow)
    (punctuations : Option (List Char)) (stopWords : Option StopWords) :
    Except String (List SentenceRow) :=
  let punct := punctuations.getD defaultPunctuations
  let sw := stopWords.getD langStop
  sentences.mapM (fun sent => do
    let tokens ← tokenize memory [⟨sent.sentenceId, sent.sentence⟩] true true true
      punct sw
    tokens.foldlM
      (fun sent (entry : List Char × TokInfo) =>
        entry.2.occurrences.foldlM (autoTranslateOcc suggTrie entry.1) sent)
      sent)

/-- C3 (code bug): `auto_translate` on a sentence whose draft is fully
`confirmed` still replaces the confirmed segment with the top suggestion
tagged `suggestion`, destroying the user's translation `"XYZ"`, contrary to
the function's own docstring ("If draft_meta is provided indicating some
portion of sentence is user translated, then it is left untouched"). -/
theorem auto_translate_overwrites_confirmed :
    auto_translate [] [("abc".toList, [("T".toList, ⟨1, 1⟩)])] ⟨[], []⟩
      [⟨1, "abc".toList, "XYZ".toList, [((0, 3), (0, 3), "confirmed")]⟩]
      (some ['.']) (some ⟨[], []⟩)
    = .ok [⟨1, "abc".toList, "T".toList, [((0, 3), (0, 1), "suggestion")]⟩] := by
  rfl

/-! ## Progress metric (nlp_crud.py 621-646) -/

/-- The per-segment accumulation of `obtain_agmt_progress`: segments of
source length ≤ 1 are skipped, the rest are summed per status
(confirmed, suggestion, untranslated). -/
def progressSegStep (acc : Int × Int × Int) (seg : Seg) : Int × Int × Int :=
  let tokenLen := seg.1.2 - seg.1.1
  if tokenLen ≤ 1 then acc
  else if seg.2.2 = "confirmed" then (acc.1 + tokenLen, acc.2.1, acc.2.2)
  else if seg.2.2 = "suggestion" then (acc.1, acc.2.1 + tokenLen, acc.2.2)
  else (acc.1, acc.2.1, acc.2.2 + tokenLen)

/-- The `{confirmed, suggestion, untranslated}` fractions. -/
structure ProgressResult where
  confirmed : ℚ
  suggestion : ℚ
  untranslated : ℚ
deriving DecidableEq

/-- The progress computation of `obtain_agmt_progress` (nlp_crud.py
621-646) over the selected draft rows (the project and row fetching are
database access and are replaced by the explicit row list).  The division
by `total_length` raises Python's `ZeroDivisionError` when the filtered
total is zero. -/
def obtain_agmt_progress (draftRows : List SentenceRow) :
    Except String ProgressResult :=
  let counts := draftRows.foldl
    (fun acc row => row.draftMeta.foldl progressSegStep acc) ((0 : Int), (0 : Int), (0 : Int))
  let total := counts.1 + counts.2.1 + counts.2.2
  if total = 0 then .error "ZeroDivisionError: division by zero"
  else .ok ⟨(counts.1 : ℚ) / (total : ℚ), (counts.2.1 : ℚ) / (total : ℚ),
    (counts.2.2 : ℚ) / (total : ℚ)⟩

theorem progressSegStep_skip {segs : List Seg}
    (h : ∀ seg ∈ segs, seg.1.2 - seg.1.1 ≤ 1) (acc : Int × Int × Int) :
    segs.foldl progressSegStep acc = acc := by
  induction segs generalizing acc with
  | nil => rfl
  | cons m rest ih =>
    simp only [List.foldl_cons]
    rw [show progressSegStep acc m = acc from by
      simp only [progressSegStep]
      rw [if_pos (h m (by simp))]]
    exact ih (fun x hx => h x (by simp [hx])) acc

/-- C10: when every draft-meta segment of every selected sentence has
source length at most 1 (including the case of no sentences or no
segments), the filtered total is zero and the progress calculation fails
with a division-by-zero error instead of returning the
confirmed/suggestion/untranslated fractions. -/
theorem obtain_agmt_progress_div_zero (rows : List SentenceRow)
    (h : ∀ row ∈ rows, ∀ seg ∈ row.draftMeta, seg.1.2 - seg.1.1 ≤ 1) :
    obtain_agmt_progress rows = .error "ZeroDivisionError: division by zero" := by
  have hcounts : rows.foldl
      (fun acc row => row.draftMeta.foldl progressSegStep acc)
      ((0 : Int), (0 : Int), (0 : Int)) = ((0 : Int), (0 : Int), (0 : Int)) := by
    have hgen : ∀ (rs : List SentenceRow),
        (∀ row ∈ rs, ∀ seg ∈ row.draftMeta, seg.1.2 - seg.1.1 ≤ 1) →
        ∀ acc : Int × Int × Int,
        rs.foldl (fun acc row => row.draftMeta.foldl progressSegStep acc) acc = acc := by
      intro rs
      induction rs with
      | nil => intro _ acc; rfl
      | cons r rest ih =>
        intro hr acc
        simp only [List.foldl_cons]
        rw [progressSegStep_skip (hr r (by simp))]
        exact ih (fun x hx => hr x (by simp [hx])) acc
    exact hgen rows h _
  simp only [obtain_agmt_progress, hcounts]
  rfl

/-- C10 witness: a sentence set whose segments are all of source length
≤ 1 makes the progress computation fail. -/
theorem obtain_agmt_progress_div_zero_witness :
    obtain_agmt_progress
      [⟨1, "ab".toList, "ab".toList,
        [((0, 1), (0, 1), "untranslated"), ((1, 1), (1, 1), "confirmed")]⟩]
    = .error "ZeroDivisionError: division by zero" :=
  obtain_agmt_progress_div_zero
    [⟨1, "ab".toList, "ab".toList,
      [((0, 1), (0, 1), "untranslated"), ((1, 1), (1, 1), "confirmed")]⟩]
    (by decide)

/-! ## JSON alignment export (nlp_crud.py 1064-1127) -/

/-- A JSON value appearing in an alignment entry. -/
inductive AVal where
  | idxs : List Nat → AVal
  | str : String → AVal
  | num : ℚ → AVal
  | bool : Bool → AVal
deriving DecidableEq

/-- The alignment dictionary `algmt` built for draft-meta segment `i` by
`export_to_json` (nlp_crud.py 1106-1124), as an insertion-ordered
association list.  Note the misspelt key in the confirmed branch:
the source does `algmt['verfied'] = True` (line 1118). -/
def alignmentEntry (i : Nat) (meta : Seg) : List (String × AVal) :=
  let base := [("r0", AVal.idxs [i]), ("r1", AVal.idxs [i]),
    ("status", AVal.str meta.2.2)]
  if meta.2.2 = "confirmed" then
    base ++ [("score", AVal.num 1), ("verfied", AVal.bool true)]
  else if meta.2.2 = "suggestion" then
    base ++ [("score", AVal.num (1 / 2)), ("verified", AVal.bool false)]
  else
    base ++ [("score", AVal.num 0), ("verified", AVal.bool false)]

/-- The `alignments` list `export_to_json` emits for one sentence row, one
entry per draft-meta segment in order. -/
def rowAlignments (row : SentenceRow) : List (List (String × AVal)) :=
  (List.range row.draftMeta.length).zip row.draftMeta |>.map
    (fun p => alignmentEntry p.1 p.2)

/-- C9 (code bug): for a `confirmed` segment the emitted alignment entry
has `score = 1` but, because of the misspelt key `verfied` at line 1118,
carries no `verified` key at all (the misspelt key holds `true`);
the `suggestion` and `untranslated` branches do emit
`score = 0.5, verified = false` and `score = 0, verified = false`. -/
theorem alignmentEntry_confirmed_missing_verified :
    alignmentEntry 0 ((0, 3), (0, 3), "confirmed")
      = [("r0", AVal.idxs [0]), ("r1", AVal.idxs [0]),
         ("status", AVal.str "confirmed"),
         ("score", AVal.num 1), ("verfied", AVal.bool true)]
    ∧ (alignmentEntry 0 ((0, 3), (0, 3), "confirmed")).lookup "verified" = none
    ∧ (alignmentEntry 1 ((3, 6), (3, 6), "suggestion")).lookup "verified"
      = some (AVal.bool false)
    ∧ (alignmentEntry 1 ((3, 6), (3, 6), "suggestion")).lookup "score"
      = some (AVal.num (1 / 2))
    ∧ (alignmentEntry 2 ((6, 9), (6, 9), "untranslated")).lookup "verified"
      = some (AVal.bool false)
    ∧ (alignmentEntry 2 ((6, 9), (6, 9), "untranslated")).lookup "score"
      = some (AVal.num 0)
    ∧ rowAlignments ⟨1, "abc".toList, "abc".toList, [((0, 3), (0, 3), "confirmed")]⟩
      = [alignmentEntry 0 ((0, 3), (0, 3), "confirmed")] := by
  refine ⟨rfl, rfl, rfl, rfl, rfl, rfl, rfl⟩

end NlpCrud
